import Mathlib

/-!
Shallow embedding of the neat-rs population / niching engine
(`src/population.rs`, `src/prob.rs`).

Modelling conventions:
* `Fitness` (defined in `fitness.rs`, not under `src/`) is modelled from the
  spec as an ordered numeric value supporting summation and division: we use `ℚ`.
* The random generator is an explicit oracle: a stream of naturals (used by
  `gen_range` / `choose`, reduced modulo the range size) and a stream of
  rationals whose fractional part models `rng.gen::<f64>() ∈ [0,1)`.
* Rust panics (failed `assert!`, `Option::unwrap` on `None`) are modelled by
  returning `none` from an `Option`-valued function.
* `f64` arithmetic is modelled exactly over `ℚ`; `x as usize` on the
  non-negative integral results of `probabilistic_round` is `Int.toNat ⌊x⌋`.
-/

/-- Oracle random generator: `nats` feeds `gen_range`/`choose`
(reduced mod the requested bound), `units` feeds `gen::<f64>()`
(its fractional part lies in `[0,1)`), `k` is the stream position. -/
structure Rng where
  nats : Nat → Nat
  units : Nat → ℚ
  k : Nat

def Rng.next (r : Rng) : Rng :=
  ⟨r.nats, r.units, r.k + 1⟩

/-- Models `rng.gen_range(0, n)`: a value in `[0, n)` (for `n > 0`). -/
def Rng.genRange (r : Rng) (n : Nat) : Nat × Rng :=
  (r.nats r.k % n, r.next)

/-- Models `rng.gen::<f64>()`: a draw in the half-open interval `[0, 1)`. -/
def Rng.genUnit (r : Rng) : ℚ × Rng :=
  (Int.fract (r.units r.k), r.next)

/-- Models `rng.choose(&slice)` (rand 0.3): `None` on an empty slice,
otherwise a uniformly indexed element; the rng is consumed only in the
non-empty case. -/
def rngChoose {α : Type} (l : List α) (r : Rng) : Option α × Rng :=
  if l.isEmpty then (none, r)
  else
    let (i, r2) := r.genRange l.length
    (l[i]?, r2)

/-- Embeds `probabilistic_round` (src/prob.rs lines 15-24): asserts
`num >= 0.0` (`none` = panicked assert), draws `p ∈ [0,1)` and rounds up
exactly when `p < num.fract()`.  For `num ≥ 0`, Rust's `trunc` is `⌊·⌋`. -/
def probabilistic_round (num : ℚ) (rng : Rng) : Option (ℚ × Rng) :=
  if num < 0 then none
  else
    let (p, r2) := rng.genUnit
    if p < Int.fract num then some (((⌊num⌋ : ℤ) : ℚ) + 1, r2)
    else some (((⌊num⌋ : ℤ) : ℚ), r2)

/-- Embeds `Individual<T>` (src/population.rs lines 13-17): a genome plus an
optional fitness.  `Fitness` is modelled from the spec as `ℚ`. -/
structure Individual (T : Type) where
  fitness : Option ℚ
  genome : T
deriving DecidableEq, Repr

/-- Embeds `Individual::has_fitness`. -/
def Individual.has_fitness {T : Type} (i : Individual T) : Bool :=
  i.fitness.isSome

/-- Embeds `Individual::fitness()` (which unwraps); total with default `0`,
used only under an `allRated` guard where the `Option` is `some`. -/
def Individual.fitnessD {T : Type} (i : Individual T) : ℚ :=
  i.fitness.getD 0

/-- A population is the ordered `Vec<Individual<T>>`; the Rust phantom
state tags (`Unrated`/`Rated`/`RatedSorted`) become side conditions. -/
abbrev Population (T : Type) := List (Individual T)

/-- The `Rated` state invariant: every individual carries a fitness. -/
def allRated {T : Type} (l : Population T) : Bool :=
  l.all (fun i => i.fitness.isSome)

/-- Embeds `Population::mean_fitness` (src/population.rs lines 316-319):
sum of fitness over length. -/
def mean_fitness {T : Type} (l : Population T) : ℚ :=
  (l.map Individual.fitnessD).sum / (l.length : ℚ)

/-- Embeds `Niche<T>` (src/population.rs lines 61-69): a rated population
plus an optional centroid index. -/
structure Niche (T : Type) where
  population : Population T
  centroid : Option Nat
deriving DecidableEq, Repr

/-- Embeds `Niche::len`. -/
def Niche.len {T : Type} (n : Niche T) : Nat :=
  n.population.length

/-- Embeds `Niche::centroid_or_else_random` (src/population.rs lines 98-100):
the centroid element if the index is set and valid, otherwise a random
element; `none` models the `unwrap` panic on an empty niche. -/
def Niche.centroid_or_else_random {T : Type} (n : Niche T) (r : Rng) :
    Option (Individual T) × Rng :=
  match n.centroid with
  | some i =>
    match n.population[i]? with
    | some ind => (some ind, r)
    | none => rngChoose n.population r
  | none => rngChoose n.population r

/-- Embeds `Niches<T>` (src/population.rs lines 71-75): the niche list plus
the cached `total_individuals` counter. -/
structure Niches (T : Type) where
  total_individuals : Nat
  niches : List (Niche T)
deriving DecidableEq, Repr

/-- Embeds `Niches::new`. -/
def Niches.new {T : Type} : Niches T :=
  ⟨0, []⟩

/-- Embeds `Niches::from_single_population` (src/population.rs lines 126-133);
`Niche::from_population` asserts the population is non-empty. -/
def Niches.from_single_population {T : Type} (pop : Population T) :
    Option (Niches T) :=
  if 0 < pop.length then some ⟨pop.length, [⟨pop, none⟩]⟩ else none

/-- Embeds `Niches::add_niche` (src/population.rs lines 171-174). -/
def Niches.add_niche {T : Type} (ns : Niches T) (n : Niche T) : Niches T :=
  ⟨ns.total_individuals + n.len, ns.niches ++ [n]⟩

/-- Embeds `Niches::collapse` (src/population.rs lines 137-150): concatenate
all niche populations; `none` models the failed asserts (`!niches.is_empty()`
and `tot == pop.len()`). -/
def Niches.collapse {T : Type} (ns : Niches T) : Option (Population T) :=
  match ns.niches with
  | [] => none
  | n :: rest =>
    let pop := n.population ++ (rest.map Niche.population).flatten
    if ns.total_individuals = pop.length then some pop else none

/-- Embeds `Niches::total_mean` (src/population.rs lines 154-156): the sum of
the mean fitness of every niche. -/
def Niches.total_mean {T : Type} (ns : Niches T) : ℚ :=
  (ns.niches.map (fun nch => mean_fitness nch.population)).sum

/-- Loop body of `Niches::find_first_matching_niche` (src/population.rs lines
180-198): scan niches in order, draw the representative of each, stop at the
first whose distance to `ind` is strictly below the threshold.  Returns the
index of that niche (or `none` inside `some` when no niche matches); the
outer `none` models the `unwrap` panic of `centroid_or_else_random`. -/
def findFirstMatchingAux {T : Type} (dist : T → T → ℚ) (threshold : ℚ)
    (ind : Individual T) : List (Niche T) → Rng → Option (Option Nat × Rng)
  | [], r => some (none, r)
  | nch :: rest, r =>
    match nch.centroid_or_else_random r with
    | (none, _) => none
    | (some rep, r2) =>
      if dist rep.genome ind.genome < threshold then some (some 0, r2)
      else
        match findFirstMatchingAux dist threshold ind rest r2 with
        | none => none
        | some (o, r3) => some (o.map Nat.succ, r3)

/-- Embeds `Niches::find_first_matching_niche`. -/
def Niches.find_first_matching_niche {T : Type} (ns : Niches T)
    (ind : Individual T) (threshold : ℚ) (dist : T → T → ℚ) (r : Rng) :
    Option (Option Nat × Rng) :=
  findFirstMatchingAux dist threshold ind ns.niches r

/-- Mutation through the `&mut Niche` returned by
`find_first_matching_niche`: push `ind` onto the population of the niche at
position `i` (embeds `Niche::add_individual`, src/population.rs lines
102-105; its `has_fitness` assert is checked at the call site). -/
def addIndToNth {T : Type} (ind : Individual T) :
    List (Niche T) → Nat → List (Niche T)
  | [], _ => []
  | nch :: rest, 0 => ⟨nch.population ++ [ind], nch.centroid⟩ :: rest
  | nch :: rest, i + 1 => nch :: addIndToNth ind rest i

/-- Loop body of `Population::partition` (src/population.rs lines 499-520).
When a niche matches, the individual is pushed into that niche and —
exactly as in the source — `total_individuals` is NOT updated; only
`add_niche` (the no-match branch) updates it.  `none` models the
`has_fitness` asserts of `Niche::add_individual` / `Niche::from_individual`
and the representative-drawing panic. -/
def partitionGo {T : Type} (threshold : ℚ) (dist : T → T → ℚ) :
    List (Individual T) → Niches T → Rng → Option (Niches T × Rng)
  | [], ns, r => some (ns, r)
  | ind :: rest, ns, r =>
    match ns.find_first_matching_niche ind threshold dist r with
    | none => none
    | some (some i, r2) =>
      if ind.has_fitness then
        partitionGo threshold dist rest ⟨ns.total_individuals, addIndToNth ind ns.niches i⟩ r2
      else none
    | some (none, r2) =>
      if ind.has_fitness then
        partitionGo threshold dist rest (ns.add_niche ⟨[ind], none⟩) r2
      else none

/-- Embeds `Population::partition` (src/population.rs lines 499-520). -/
def Population.partition {T : Type} (pop : Population T) (r : Rng)
    (threshold : ℚ) (dist : T → T → ℚ) : Option (Niches T × Rng) :=
  partitionGo threshold dist pop Niches.new r

/-- Embeds `Population::rate_seq` (src/population.rs lines 287-298): the
sequential for-loop attaching `f genome` to every individual. -/
def rate_seq {T : Type} (l : Population T) (f : T → ℚ) : Population T :=
  match l with
  | [] => []
  | ind :: rest => ⟨some (f ind.genome), ind.genome⟩ :: rate_seq rest f

/-- Embeds `Population::rate_par` (src/population.rs lines 300-312): the
parallel `for_each` is an element-independent map with a deterministic
result. -/
def rate_par {T : Type} (l : Population T) (f : T → ℚ) : Population T :=
  l.map (fun ind => ⟨some (f ind.genome), ind.genome⟩)

/-- Descending-by-fitness comparator of `Population::sort`
(src/population.rs line 391): `a` may precede `b` iff `fitness b ≤ fitness a`. -/
def sortLe {T : Type} (a b : Individual T) : Bool :=
  decide (Individual.fitnessD b ≤ Individual.fitnessD a)

/-- Embeds `Population::sort` (src/population.rs lines 390-396): a stable
sort by non-increasing fitness (Rust `sort_by` is stable; `List.mergeSort`
is the stable sort here).  The comparator unwraps each fitness, so a missing
fitness is a panic, modelled by the `allRated` guard. -/
def Population.sort {T : Type} (l : Population T) : Option (Population T) :=
  if allRated l then some (l.mergeSort sortLe) else none

/-- Embeds `Population::<RatedSorted>::best_individual`
(src/population.rs lines 327-329): the first element. -/
def best_individual_sorted {T : Type} (l : Population T) :
    Option (Individual T) :=
  l.head?

/-- Embeds `Population::merge` (src/population.rs lines 403-405): append the
first `n` individuals of the (sorted) other population. -/
def Population.merge {T : Type} (p : Population T) (other : Population T)
    (n : Nat) : Population T :=
  p ++ other.take n

/-- The `Mate` capability (spec §6): one offspring from two parents, a
self-mated flag, and the rng. -/
abbrev MateFn (T : Type) := T → T → Bool → Rng → T × Rng

/-- The retry loop of `Population::create_single_offspring`
(src/population.rs lines 357-362): up to `fuel` (= 3) redraws of the second
parent index while it coincides with the first. -/
def retrySecondParent (select_size p1 : Nat) :
    Nat → Nat → Rng → Nat × Rng
  | 0, p2, r => (p2, r)
  | fuel + 1, p2, r =>
    if p2 ≠ p1 then (p2, r)
    else
      let (p2n, r2) := r.genRange select_size
      retrySecondParent select_size p1 fuel p2n r2

/-- Embeds `Population::create_single_offspring` (src/population.rs lines
344-375): assert `0 < select_size ≤ len`, draw both parents from
`[0, select_size)`, retry the second up to 3 times for distinctness, swap so
the first index is the smaller, and mate with the self-mated flag set iff the
indices coincide. -/
def Population.create_single_offspring {T : Type} (l : Population T)
    (select_size : Nat) (mate : MateFn T) (r : Rng) : Option (T × Rng) :=
  if 0 < select_size ∧ select_size ≤ l.length then
    let (p1a, r1) := r.genRange select_size
    let (p2a, r2) := r1.genRange select_size
    let (p2b, r3) := retrySecondParent select_size p1a 3 p2a r2
    let p1 := min p1a p2b
    let p2 := max p1a p2b
    match l[p1]?, l[p2]? with
    | some i1, some i2 => some (mate i1.genome i2.genome (p1 == p2) r3)
    | _, _ => none
  else none

/-- The offspring loop of `reproduce_into` (src/population.rs lines 486-491):
produce `k` offspring in order from the top `select_size` individuals. -/
def produceOffspring {T : Type} (l : Population T) (select_size : Nat)
    (mate : MateFn T) : Nat → Rng → Option (List T × Rng)
  | 0, r => some ([], r)
  | k + 1, r =>
    match l.create_single_offspring select_size mate r with
    | none => none
    | some (c, r2) =>
      match produceOffspring l select_size mate k r2 with
      | none => none
      | some (cs, r3) => some (c :: cs, r3)

/-- Embeds `Population::reproduce_into` (src/population.rs lines 452-495).
Returns `(new_unrated, new_rated, rng)` with the two accumulator
populations extended: offspring genomes are pushed (fitness `None`) into the
unrated accumulator, then the top `elite_size` of the sorted input is merged
into the rated accumulator. -/
def Population.reproduce_into {T : Type} (pop : Population T)
    (new_pop_size elite_percentage selection_percentage : ℚ) (mate : MateFn T)
    (new_unrated new_rated : Population T) (r : Rng) :
    Option (Population T × Population T × Rng) :=
  match probabilistic_round (new_pop_size * elite_percentage) r with
  | none => none
  | some (e, r1) =>
    let elite_size := max 1 (Int.toNat ⌊e⌋)
    match probabilistic_round (new_pop_size * (1 - elite_percentage)) r1 with
    | none => none
    | some (o, r2) =>
      let offspring_size := Int.toNat ⌊o⌋
      match probabilistic_round (new_pop_size * selection_percentage) r2 with
      | none => none
      | some (s, r3) =>
        let select_size := min pop.length (Int.toNat ⌊s⌋)
        match pop.sort with
        | none => none
        | some sorted_pop =>
          if 0 < select_size then
            match produceOffspring sorted_pop select_size mate offspring_size r3 with
            | none => none
            | some (offs, r4) =>
              some (new_unrated ++ offs.map (fun g => ⟨none, g⟩),
                    new_rated.merge sorted_pop elite_size, r4)
          else
            some (new_unrated, new_rated.merge sorted_pop elite_size, r3)

/-- Embeds `Population::reproduce` (src/population.rs lines 417-443):
`reproduce_into` on fresh accumulators, returning `(rated, unrated, rng)`. -/
def Population.reproduce {T : Type} (pop : Population T)
    (new_pop_size elite_percentage selection_percentage : ℚ) (mate : MateFn T)
    (r : Rng) : Option (Population T × Population T × Rng) :=
  match pop.reproduce_into new_pop_size elite_percentage selection_percentage
      mate [] [] r with
  | none => none
  | some (nu, nr, r2) => some (nr, nu, r2)

/-- The `percentage_of_population` binding of `Niches::reproduce_global`
(src/population.rs lines 233-239): equal split `1/num_niches` when the total
mean fitness is zero, else this niche's mean over the total mean. -/
def percentage_of_population {T : Type} (total_mean : ℚ) (num_niches : Nat)
    (nch : Niche T) : ℚ :=
  if total_mean = 0 then 1 / (num_niches : ℚ)
  else mean_fitness nch.population / total_mean

/-- Loop body of `Niches::reproduce_global` (src/population.rs lines
232-253): each niche reproduces into the shared accumulators with target
size `new_pop_size * percentage_of_population`; `none` models the
`percentage ∈ [0,1]` assert. -/
def reproduceGlobalGo {T : Type} (new_pop_size : Nat) (ef sf : ℚ)
    (mate : MateFn T) (total_mean : ℚ) (num_niches : Nat) :
    List (Niche T) → Population T → Population T → Rng →
    Option (Population T × Population T × Rng)
  | [], nu, nr, r => some (nr, nu, r)
  | nch :: rest, nu, nr, r =>
    let pct := percentage_of_population total_mean num_niches nch
    if 0 ≤ pct ∧ pct ≤ 1 then
      match nch.population.reproduce_into ((new_pop_size : ℚ) * pct) ef sf
          mate nu nr r with
      | none => none
      | some (nu2, nr2, r2) =>
        reproduceGlobalGo new_pop_size ef sf mate total_mean num_niches rest nu2 nr2 r2
    else none

/-- Embeds `Niches::reproduce_global` (src/population.rs lines 206-256);
`none` models its entry asserts (`num_individuals > 0`, `num_niches > 0`,
`elite ≤ selection`, `total_mean ≥ 0`). -/
def Niches.reproduce_global {T : Type} (ns : Niches T) (new_pop_size : Nat)
    (ef sf : ℚ) (mate : MateFn T) (r : Rng) :
    Option (Population T × Population T × Rng) :=
  if 0 < ns.total_individuals ∧ 0 < ns.niches.length ∧ ef ≤ sf ∧
      0 ≤ ns.total_mean then
    reproduceGlobalGo new_pop_size ef sf mate ns.total_mean ns.niches.length
      ns.niches [] [] r
  else none

/-- Sequence of representatives: draw `centroid_or_else_random` of every
niche in order, threading the rng exactly as the scan of
`find_first_matching_niche` does. -/
def drawReps {T : Type} : List (Niche T) → Rng → Option (List (Individual T) × Rng)
  | [], r => some ([], r)
  | nch :: rest, r =>
    match nch.centroid_or_else_random r with
    | (none, _) => none
    | (some rep, r2) =>
      match drawReps rest r2 with
      | none => none
      | some (reps, r3) => some (rep :: reps, r3)

/-- The prefix of `fuel` successive `gen_range(0, n)` draws from `r`. -/
def drawSeq (n : Nat) : Nat → Rng → List Nat × Rng
  | 0, r => ([], r)
  | fuel + 1, r =>
    let (x, r2) := r.genRange n
    let (xs, r3) := drawSeq n fuel r2
    (x :: xs, r3)

/-- Concrete rng oracle (all streams zero) for witnesses. -/
def rng0 : Rng :=
  ⟨fun _ => 0, fun _ => 0, 0⟩

/-- Concrete two-individual rated population for the `partition` /
`collapse` failing input. -/
def popAB : Population Nat :=
  [⟨some 1, 0⟩, ⟨some 1, 1⟩]

/-- Distance function that makes every pair of genomes compatible. -/
def distZero : Nat → Nat → ℚ :=
  fun _ _ => 0

/-- Concrete mating operator for witnesses: returns the first parent. -/
def mateNat : MateFn Nat :=
  fun g1 _ _ r => (g1, r)

/-- Two all-zero-fitness niches of unequal sizes 1 and 3 (degenerate
equal-split scenario of `reproduce_global`). -/
def nicheZ1 : Niche Nat :=
  ⟨[⟨some 0, 0⟩], none⟩

/-- The size-3 all-zero-fitness niche of the equal-split scenario. -/
def nicheZ3 : Niche Nat :=
  ⟨[⟨some 0, 1⟩, ⟨some 0, 2⟩, ⟨some 0, 3⟩], none⟩

/-- Fitness-[5,3,3,1,0] population of the C7 scenario; genomes number the
individuals so that stability is observable. -/
def pop53310 : Population Nat :=
  [⟨some 5, 0⟩, ⟨some 3, 1⟩, ⟨some 3, 2⟩, ⟨some 1, 3⟩, ⟨some 0, 4⟩]

/-- The two-niche all-zero-fitness `Niches` value of sizes 1 and 3. -/
def nichesZ : Niches Nat :=
  ⟨4, [nicheZ1, nicheZ3]⟩

/-- Helper: `probabilistic_round` on a non-negative argument returns the
floor or the ceiling. -/
theorem probabilistic_round_floor_or_ceil (x : ℚ) (rng : Rng) (hx : 0 ≤ x) :
    ∃ y r2, probabilistic_round x rng = some (y, r2) ∧
      (y = ((⌊x⌋ : ℤ) : ℚ) ∨ y = ((⌈x⌉ : ℤ) : ℚ)) := by
  unfold probabilistic_round
  rw [if_neg (by exact not_lt.mpr hx)]
  by_cases h : (rng.genUnit).1 < Int.fract x
  · refine ⟨((⌊x⌋ : ℤ) : ℚ) + 1, (rng.genUnit).2, ?_, ?_⟩
    · simp only [Rng.genUnit] at h ⊢
      rw [if_pos h]
    · right
      have hfr : 0 < Int.fract x := lt_of_le_of_lt (Int.fract_nonneg _) h
      have hne : Int.fract x ≠ 0 := ne_of_gt hfr
      rw [Int.ceil_eq_add_one_sub_fract hne]
      have := Int.floor_add_fract x
      linarith
  · refine ⟨((⌊x⌋ : ℤ) : ℚ), (rng.genUnit).2, ?_, Or.inl rfl⟩
    simp only [Rng.genUnit] at h ⊢
    rw [if_neg h]

/-- C9: for every `x ≥ 0` and every rng, `probabilistic_round(x, rng)`
returns `⌊x⌋` or `⌈x⌉`; it returns `⌊x⌋ + 1` exactly when the unit draw
`p ∈ [0,1)` satisfies `p < fract x`; an integral `x` is returned unchanged;
and the expectation of the result under the uniform draw equals `x`
(no systematic bias). -/
theorem probabilistic_round_C9 (x : ℚ) (rng : Rng) (hx : 0 ≤ x) :
    ∃ y r2, probabilistic_round x rng = some (y, r2) ∧
      (y = ((⌊x⌋ : ℤ) : ℚ) ∨ y = ((⌈x⌉ : ℤ) : ℚ)) ∧
      (y = ((⌊x⌋ : ℤ) : ℚ) + 1 ↔ (rng.genUnit).1 < Int.fract x) ∧
      (Int.fract x = 0 → y = x) ∧
      Int.fract x * (((⌊x⌋ : ℤ) : ℚ) + 1) +
        (1 - Int.fract x) * ((⌊x⌋ : ℤ) : ℚ) = x := by
  have hmean : Int.fract x * (((⌊x⌋ : ℤ) : ℚ) + 1) +
      (1 - Int.fract x) * ((⌊x⌋ : ℤ) : ℚ) = x := by
    have hfl := Int.floor_add_fract x
    ring_nf
    linarith
  have hp0 : 0 ≤ (rng.genUnit).1 := by
    simp only [Rng.genUnit]
    exact Int.fract_nonneg _
  unfold probabilistic_round
  rw [if_neg (not_lt.mpr hx)]
  by_cases h : (rng.genUnit).1 < Int.fract x
  · refine ⟨((⌊x⌋ : ℤ) : ℚ) + 1, (rng.genUnit).2, ?_, ?_, ?_, ?_, hmean⟩
    · simp only [Rng.genUnit] at h ⊢
      rw [if_pos h]
    · right
      have hfr : 0 < Int.fract x := lt_of_le_of_lt hp0 h
      rw [Int.ceil_eq_add_one_sub_fract (ne_of_gt hfr)]
      have hfl := Int.floor_add_fract x
      linarith
    · exact ⟨fun _ => h, fun _ => rfl⟩
    · intro hz
      exact absurd h (by rw [hz]; exact not_lt.mpr hp0)
  · refine ⟨((⌊x⌋ : ℤ) : ℚ), (rng.genUnit).2, ?_, Or.inl rfl, ?_, ?_, hmean⟩
    · simp only [Rng.genUnit] at h ⊢
      rw [if_neg h]
    · constructor
      · intro habs
        exact absurd habs (by simp)
      · intro hlt
        exact absurd hlt h
    · intro hz
      have hfl := Int.floor_add_fract x
      rw [hz, add_zero] at hfl
      exact hfl

/-- Witness for C9 at `x = 3/2` with the zero rng oracle. -/
theorem probabilistic_round_C9_witness :
    (0 : ℚ) ≤ 3 / 2 ∧
      ∃ y r2, probabilistic_round (3 / 2) rng0 = some (y, r2) ∧
        (y = ((⌊(3 / 2 : ℚ)⌋ : ℤ) : ℚ) ∨ y = ((⌈(3 / 2 : ℚ)⌉ : ℤ) : ℚ)) ∧
        (y = ((⌊(3 / 2 : ℚ)⌋ : ℤ) : ℚ) + 1 ↔
          (rng0.genUnit).1 < Int.fract (3 / 2 : ℚ)) ∧
        (Int.fract (3 / 2 : ℚ) = 0 → y = 3 / 2) ∧
        Int.fract (3 / 2 : ℚ) * (((⌊(3 / 2 : ℚ)⌋ : ℤ) : ℚ) + 1) +
          (1 - Int.fract (3 / 2 : ℚ)) * ((⌊(3 / 2 : ℚ)⌋ : ℤ) : ℚ) = 3 / 2 :=
  ⟨by norm_num, probabilistic_round_C9 (3 / 2) rng0 (by norm_num)⟩

/-- C1 fails on the code: on a two-individual rated population where every
pair is compatible (distance 0, threshold 1), `partition` places both
individuals in one niche but leaves `total_individuals = 1`, so
`collapse` hits its `tot == pop.len()` assert (modelled as `none`) instead
of returning a population of length 2. -/
theorem partition_collapse_C1_assert_fails :
    (Population.partition popAB rng0 1 distZero).map
      (fun x => x.1.collapse) = some none := by
  rfl

/-- C2 fails on the code: after `partition` inserts the second individual
into the existing niche through `find_first_matching_niche`, the cached
`total_individuals` is 1 while the sum of the niches' lengths is 2. -/
theorem partition_total_C2_stale :
    (Population.partition popAB rng0 1 distZero).map
      (fun x => (x.1.total_individuals,
        (x.1.niches.map (fun nch => nch.population.length)).sum)) =
      some (1, 2) := by
  rfl

/-- C8: rating an unrated population (sequentially or in parallel) keeps the
size, attaches to every position the fitness computed from its genome with
the genome unchanged, and the two variants return the same population;
neither takes the random source. -/
theorem rate_C8 {T : Type} (l : Population T) (f : T → ℚ) :
    rate_seq l f = rate_par l f ∧
    (rate_seq l f).length = l.length ∧
    allRated (rate_seq l f) = true ∧
    ∀ i (h : i < l.length),
      (rate_seq l f)[i]? =
        some ⟨some (f (l.get ⟨i, h⟩).genome), (l.get ⟨i, h⟩).genome⟩ := by
  have hmap : rate_seq l f = rate_par l f := by
    induction l with
    | nil => rfl
    | cons a t ih =>
      simp only [rate_seq, rate_par, List.map_cons]
      rw [ih]
      rfl
  refine ⟨hmap, ?_, ?_, ?_⟩
  · rw [hmap]
    simp [rate_par]
  · rw [hmap]
    simp [rate_par, allRated, List.all_eq_true]
  · intro i h
    rw [hmap]
    show (l.map (fun ind =>
      (⟨some (f ind.genome), ind.genome⟩ : Individual T)))[i]? = _
    rw [List.getElem?_map, List.getElem?_eq_getElem h]
    rfl

/-- Witness for C8: position 0 of the rated form of the concrete
population. -/
theorem rate_C8_witness :
    (rate_seq popAB (fun n => (n : ℚ)))[0]? = some ⟨some 0, 0⟩ := by
  have h := (rate_C8 popAB (fun n => (n : ℚ))).2.2.2 0 (by decide)
  exact h

/-- Helper: the retry loop never leaves `[0, select_size)` when it starts
there. -/
theorem retrySecondParent_lt (ss p1 : Nat) (hss : 0 < ss) :
    ∀ fuel p2 r, p2 < ss → (retrySecondParent ss p1 fuel p2 r).1 < ss := by
  intro fuel
  induction fuel with
  | zero =>
    intro p2 r h
    simpa [retrySecondParent] using h
  | succ n ih =>
    intro p2 r h
    unfold retrySecondParent
    split
    · exact h
    · exact ih _ _ (Nat.mod_lt _ hss)

/-- Helper: `create_single_offspring` under its assert returns the mating of
two in-range indices `p1 ≤ p2 < select_size` with the self-mated flag set
iff they coincide. -/
theorem create_single_offspring_spec {T : Type} (l : Population T) (ss : Nat)
    (mate : MateFn T) (r : Rng) (h1 : 0 < ss) (h2 : ss ≤ l.length) :
    ∃ p1 p2 rm i1 i2, p1 ≤ p2 ∧ p2 < ss ∧
      l[p1]? = some i1 ∧ l[p2]? = some i2 ∧
      l.create_single_offspring ss mate r =
        some (mate i1.genome i2.genome (p1 == p2) rm) := by
  unfold Population.create_single_offspring
  rw [if_pos ⟨h1, h2⟩]
  dsimp only [Rng.genRange]
  obtain ⟨p2b, r3, hret⟩ :
      ∃ p2b r3, retrySecondParent ss (r.nats r.k % ss) 3
        (r.next.nats r.next.k % ss) r.next.next = (p2b, r3) :=
    ⟨_, _, rfl⟩
  rw [hret]
  have hp1a : r.nats r.k % ss < ss := Nat.mod_lt _ h1
  have hp2a : r.next.nats r.next.k % ss < ss := Nat.mod_lt _ h1
  have hp2b : p2b < ss := by
    have := retrySecondParent_lt ss (r.nats r.k % ss) h1 3
      (r.next.nats r.next.k % ss) r.next.next hp2a
    rwa [hret] at this
  have hminlt : min (r.nats r.k % ss) p2b < ss := lt_of_le_of_lt (min_le_left _ _) hp1a
  have hmaxlt : max (r.nats r.k % ss) p2b < ss := max_lt hp1a hp2b
  have hmin : min (r.nats r.k % ss) p2b < l.length := lt_of_lt_of_le hminlt h2
  have hmax : max (r.nats r.k % ss) p2b < l.length := lt_of_lt_of_le hmaxlt h2
  rw [List.getElem?_eq_getElem hmin, List.getElem?_eq_getElem hmax]
  exact ⟨min (r.nats r.k % ss) p2b, max (r.nats r.k % ss) p2b, r3, _, _,
    min_le_max, hmaxlt,
    List.getElem?_eq_getElem hmin, List.getElem?_eq_getElem hmax, rfl⟩

/-- Helper: the head of `drawSeq` is the next `gen_range` draw. -/
theorem drawSeq_succ_fst (ss n : Nat) (r : Rng) :
    (drawSeq ss (n + 1) r).1 =
      (r.nats r.k % ss) :: (drawSeq ss n r.next).1 := by
  rcases h : drawSeq ss n r.next with ⟨xs, r3⟩
  unfold drawSeq
  dsimp only [Rng.genRange]
  rw [h]

/-- Helper: the retry loop returns the first candidate distinct from the
first parent among the initial second draw and the `fuel` redraws, and the
coincident index (= `q1`) when all of them coincide. -/
theorem retry_find_char (ss q1 : Nat) :
    ∀ fuel q2 r0, (retrySecondParent ss q1 fuel q2 r0).1 =
      ((q2 :: (drawSeq ss fuel r0).1).find? (fun x => x != q1)).getD q1 := by
  intro fuel
  induction fuel with
  | zero =>
    intro q2 r0
    by_cases h : q2 = q1
    · subst h
      simp [retrySecondParent, drawSeq]
    · simp [retrySecondParent, drawSeq, h]
  | succ n ih =>
    intro q2 r0
    by_cases h : q2 = q1
    · subst h
      unfold retrySecondParent
      rw [if_neg (by simp)]
      dsimp only [Rng.genRange]
      rw [ih, drawSeq_succ_fst]
      simp
    · unfold retrySecondParent
      rw [if_pos h]
      simp [h]

/-- C6: for a sorted pool and `0 < select_size ≤ length`,
`create_single_offspring` draws two indices in `[0, select_size)`, redraws
the second up to 3 times seeking distinctness (falling back to the
coincident pair), orders the pair so the first index is ≤ the second, and
invokes the mating operator with the self-mated flag true exactly when the
indices are equal; `select_size = 1` forces both indices to 0 with the flag
true. -/
theorem create_single_offspring_C6 {T : Type} (l : Population T) (ss : Nat)
    (mate : MateFn T) (r : Rng) (h1 : 0 < ss) (h2 : ss ≤ l.length) :
    (∃ p1 p2 rm i1 i2, p1 ≤ p2 ∧ p2 < ss ∧
      l[p1]? = some i1 ∧ l[p2]? = some i2 ∧
      l.create_single_offspring ss mate r =
        some (mate i1.genome i2.genome (p1 == p2) rm)) ∧
    (∀ q1 q2 fuel r0, (retrySecondParent ss q1 fuel q2 r0).1 =
      ((q2 :: (drawSeq ss fuel r0).1).find? (fun x => x != q1)).getD q1) ∧
    (ss = 1 → ∃ rm i0, l[0]? = some i0 ∧
      l.create_single_offspring ss mate r =
        some (mate i0.genome i0.genome true rm)) := by
  refine ⟨create_single_offspring_spec l ss mate r h1 h2,
    fun q1 q2 fuel r0 => retry_find_char ss q1 fuel q2 r0, ?_⟩
  intro hss1
  subst hss1
  obtain ⟨p1, p2, rm, i1, i2, hle, hlt, hg1, hg2, heq⟩ :=
    create_single_offspring_spec l 1 mate r h1 h2
  have hp2 : p2 = 0 := Nat.lt_one_iff.mp hlt
  subst hp2
  have hp1 : p1 = 0 := Nat.le_zero.mp hle
  subst hp1
  have hi : i2 = i1 := by
    rw [hg1] at hg2
    exact (Option.some.inj hg2).symm
  subst hi
  exact ⟨rm, i2, hg1, heq⟩

/-- Witness for C6 on the concrete two-individual population with
`select_size = 2`. -/
theorem create_single_offspring_C6_witness :
    ∃ p1 p2 rm i1 i2, p1 ≤ p2 ∧ p2 < 2 ∧
      popAB[p1]? = some i1 ∧ popAB[p2]? = some i2 ∧
      popAB.create_single_offspring 2 mateNat rng0 =
        some (mateNat i1.genome i2.genome (p1 == p2) rm) :=
  (create_single_offspring_C6 popAB 2 mateNat rng0 (by decide) (by decide)).1

/-- Helper: a rated population sorts to its stable merge sort. -/
theorem sort_eq {T : Type} (l : Population T) (hfit : allRated l = true) :
    Population.sort l = some (l.mergeSort sortLe) := by
  simp [Population.sort, hfit]

/-- Helper: the offspring loop always succeeds on a valid selection pool and
produces exactly the requested number of offspring. -/
theorem produceOffspring_spec {T : Type} (l : Population T) (ss : Nat)
    (mate : MateFn T) (h1 : 0 < ss) (h2 : ss ≤ l.length) :
    ∀ k r, ∃ cs r2, produceOffspring l ss mate k r = some (cs, r2) ∧
      cs.length = k := by
  intro k
  induction k with
  | zero => exact fun r => ⟨[], r, rfl, rfl⟩
  | succ n ih =>
    intro r
    obtain ⟨p1, p2, rm, i1, i2, _, _, _, _, heq⟩ :=
      create_single_offspring_spec l ss mate r h1 h2
    rcases hm : mate i1.genome i2.genome (p1 == p2) rm with ⟨c, rq⟩
    rw [hm] at heq
    obtain ⟨cs, r2, hgo, hlen⟩ := ih rq
    refine ⟨c :: cs, r2, ?_, by simp [hlen]⟩
    unfold produceOffspring
    rw [heq]
    dsimp only
    rw [hgo]

/-- Helper: full characterization of `reproduce_into`: the three stochastic
rounds are drawn in order (elite from the elite fraction, offspring from one
minus the elite fraction, selection from the selection fraction), the
offspring count is the rounded offspring size when the selection pool is
non-empty and zero otherwise, and the rated accumulator receives the top
`max 1 ⌊e⌋` individuals of the stably sorted input. -/
theorem reproduce_into_spec {T : Type} (pop : Population T) (target ef sf : ℚ)
    (mate : MateFn T) (nu nr : Population T) (rng : Rng)
    (hfit : allRated pop = true) (h0 : 0 ≤ target)
    (hef0 : 0 ≤ ef) (hef1 : ef ≤ 1) (hsf0 : 0 ≤ sf) :
    ∃ (e o s : ℚ) (r1 r2 r3 : Rng) (offs : List T) (rF : Rng),
      probabilistic_round (target * ef) rng = some (e, r1) ∧
      probabilistic_round (target * (1 - ef)) r1 = some (o, r2) ∧
      probabilistic_round (target * sf) r2 = some (s, r3) ∧
      offs.length =
        (if 0 < min pop.length (Int.toNat ⌊s⌋) then Int.toNat ⌊o⌋ else 0) ∧
      pop.reproduce_into target ef sf mate nu nr rng =
        some (nu ++ offs.map (fun g => ⟨none, g⟩),
          nr ++ (pop.mergeSort sortLe).take (max 1 (Int.toNat ⌊e⌋)), rF) := by
  obtain ⟨e, r1, he, -⟩ :=
    probabilistic_round_floor_or_ceil (target * ef) rng (mul_nonneg h0 hef0)
  obtain ⟨o, r2, ho, -⟩ :=
    probabilistic_round_floor_or_ceil (target * (1 - ef)) r1
      (mul_nonneg h0 (by linarith))
  obtain ⟨s, r3, hs, -⟩ :=
    probabilistic_round_floor_or_ceil (target * sf) r2 (mul_nonneg h0 hsf0)
  by_cases hsel : 0 < min pop.length (Int.toNat ⌊s⌋)
  · have hss_le : min pop.length (Int.toNat ⌊s⌋) ≤
        (pop.mergeSort sortLe).length := by
      rw [List.length_mergeSort]
      exact min_le_left _ _
    obtain ⟨offs, r4, hprod, hlen⟩ :=
      produceOffspring_spec (pop.mergeSort sortLe) _ mate hsel hss_le
        (Int.toNat ⌊o⌋) r3
    refine ⟨e, o, s, r1, r2, r3, offs, r4, he, ho, hs, ?_, ?_⟩
    · rw [hlen, if_pos hsel]
    · simp only [Population.reproduce_into, he, ho, hs, sort_eq pop hfit,
        if_pos hsel, hprod, Population.merge]
  · refine ⟨e, o, s, r1, r2, r3, [], r3, he, ho, hs, ?_, ?_⟩
    · rw [if_neg hsel]
      rfl
    · simp only [Population.reproduce_into, he, ho, hs, sort_eq pop hfit,
        if_neg hsel, Population.merge, List.map_nil, List.append_nil]

/-- C4: `reproduce` computes `elite_size = max 1 (round(target × elite_f))`
(always ≥ 1), `offspring_size = round(target × (1 − elite_f))` — whose
round visibly takes only the elite fraction, not the selection fraction —
and `select_size = min(len, round(target × selection_f))`; the returned
rated population is exactly the top `elite_size` prefix of the
fitness-sorted input. -/
theorem reproduce_C4 {T : Type} (pop : Population T) (target ef sf : ℚ)
    (mate : MateFn T) (rng : Rng)
    (hfit : allRated pop = true) (h0 : 0 ≤ target) (hef0 : 0 ≤ ef)
    (hef1 : ef ≤ 1) (hsf0 : 0 ≤ sf) (_hefsf : ef ≤ sf) :
    ∃ e o s r1 r2 r3 sorted rated unrated rF,
      probabilistic_round (target * ef) rng = some (e, r1) ∧
      probabilistic_round (target * (1 - ef)) r1 = some (o, r2) ∧
      probabilistic_round (target * sf) r2 = some (s, r3) ∧
      Population.sort pop = some sorted ∧
      pop.reproduce target ef sf mate rng = some (rated, unrated, rF) ∧
      rated = sorted.take (max 1 (Int.toNat ⌊e⌋)) ∧
      1 ≤ max 1 (Int.toNat ⌊e⌋) ∧
      unrated.length =
        (if 0 < min pop.length (Int.toNat ⌊s⌋) then Int.toNat ⌊o⌋ else 0) := by
  obtain ⟨e, o, s, r1, r2, r3, offs, rF, he, ho, hs, hlen, heq⟩ :=
    reproduce_into_spec pop target ef sf mate [] [] rng hfit h0 hef0 hef1 hsf0
  refine ⟨e, o, s, r1, r2, r3, pop.mergeSort sortLe,
    (pop.mergeSort sortLe).take (max 1 (Int.toNat ⌊e⌋)),
    offs.map (fun g => ⟨none, g⟩), rF,
    he, ho, hs, sort_eq pop hfit, ?_, rfl, le_max_left _ _, ?_⟩
  · unfold Population.reproduce
    rw [heq]
    simp
  · rw [List.length_map, hlen]

/-- Witness for C4 on the concrete two-individual population. -/
theorem reproduce_C4_witness :
    ∃ rated unrated rF,
      popAB.reproduce 10 (1 / 2) (1 / 2) mateNat rng0 =
        some (rated, unrated, rF) := by
  obtain ⟨e, o, s, r1, r2, r3, sorted, rated, unrated, rF,
    -, -, -, -, h5, -⟩ :=
    reproduce_C4 popAB 10 (1 / 2) (1 / 2) mateNat rng0 (by decide)
      (by norm_num) (by norm_num) (by norm_num) (by norm_num) (by norm_num)
  exact ⟨rated, unrated, rF, h5⟩

/-- C10: `merge` appends exactly `min n (length q)` individuals (the take
saturates), and consequently `reproduce` on an input shorter than the
computed elite size copies only `length`-many elites — none at all for an
empty input. -/
theorem merge_C10 {T : Type} (p q : Population T) (n : Nat) :
    (p.merge q n).length = p.length + min n q.length ∧
    (∀ (pop : Population T) (target ef sf : ℚ) (mate : MateFn T) (rng : Rng),
      allRated pop = true → 0 ≤ target → 0 ≤ ef → ef ≤ 1 → 0 ≤ sf →
      ∃ e r1 rated unrated rF,
        probabilistic_round (target * ef) rng = some (e, r1) ∧
        pop.reproduce target ef sf mate rng = some (rated, unrated, rF) ∧
        rated.length = min (max 1 (Int.toNat ⌊e⌋)) pop.length ∧
        (pop = [] → rated = [])) := by
  constructor
  · simp [Population.merge]
  · intro pop target ef sf mate rng hfit h0 hef0 hef1 hsf0
    obtain ⟨e, o, s, r1, r2, r3, offs, rF, he, ho, hs, hlen, heq⟩ :=
      reproduce_into_spec pop target ef sf mate [] [] rng hfit h0 hef0 hef1
        hsf0
    refine ⟨e, r1, (pop.mergeSort sortLe).take (max 1 (Int.toNat ⌊e⌋)),
      offs.map (fun g => ⟨none, g⟩), rF, he, ?_, ?_, ?_⟩
    · unfold Population.reproduce
      rw [heq]
      simp
    · rw [List.length_take, List.length_mergeSort]
    · intro hnil
      subst hnil
      simp

/-- Witness for C10 on the concrete two-individual population. -/
theorem merge_C10_witness :
    ∃ e r1 rated unrated rF,
      probabilistic_round (10 * (1 / 2)) rng0 = some (e, r1) ∧
      popAB.reproduce 10 (1 / 2) (1 / 2) mateNat rng0 =
        some (rated, unrated, rF) ∧
      rated.length = min (max 1 (Int.toNat ⌊e⌋)) popAB.length ∧
      (popAB = [] → rated = []) :=
  (merge_C10 popAB popAB 1).2 popAB 10 (1 / 2) (1 / 2) mateNat rng0
    (by decide) (by norm_num) (by norm_num) (by norm_num) (by norm_num)

/-- Helper: the sort comparator is transitive. -/
theorem sortLe_trans {T : Type} :
    ∀ a b c : Individual T, sortLe a b = true → sortLe b c = true →
      sortLe a c = true := by
  intro a b c hab hbc
  simp only [sortLe, decide_eq_true_eq] at hab hbc ⊢
  exact le_trans hbc hab

/-- Helper: the sort comparator is total. -/
theorem sortLe_total {T : Type} :
    ∀ a b : Individual T, (sortLe a b || sortLe b a) = true := by
  intro a b
  simp only [sortLe, Bool.or_eq_true, decide_eq_true_eq]
  exact le_total _ _

/-- C7: `sort` returns a permutation of the input ordered by non-increasing
fitness in which equal-fitness individuals retain their pre-sort relative
order (the filter at every fitness value is unchanged); on the sorted
result `best_individual` is the first element, which has maximum fitness.
The fitness-[5,3,3,1,0] scenario sorts to itself with the two fitness-3
individuals in original order and the fitness-5 individual first. -/
theorem sort_C7 {T : Type} (l : Population T) (hfit : allRated l = true) :
    ∃ l2, Population.sort l = some l2 ∧
      l2.Perm l ∧
      List.Pairwise
        (fun a b => Individual.fitnessD b ≤ Individual.fitnessD a) l2 ∧
      (∀ q : ℚ, l2.filter (fun i => i.fitness == some q) =
        l.filter (fun i => i.fitness == some q)) ∧
      best_individual_sorted l2 = l2.head? ∧
      (∀ b, best_individual_sorted l2 = some b →
        ∀ x ∈ l2, Individual.fitnessD x ≤ Individual.fitnessD b) ∧
      (Population.sort pop53310 = some pop53310 ∧
        best_individual_sorted pop53310 = some ⟨some 5, 0⟩) := by
  have hpw2 : List.Pairwise
      (fun a b => Individual.fitnessD b ≤ Individual.fitnessD a)
      (l.mergeSort sortLe) := by
    refine (List.sorted_mergeSort sortLe_trans sortLe_total l).imp ?_
    intro a b h
    simpa [sortLe] using h
  refine ⟨l.mergeSort sortLe, sort_eq l hfit, List.mergeSort_perm l sortLe,
    hpw2, ?_, rfl, ?_, ?_, ?_⟩
  · intro q
    have hself : (l.filter (fun i => i.fitness == some q)).filter
        (fun i => i.fitness == some q) =
        l.filter (fun i => i.fitness == some q) := by
      rw [List.filter_eq_self]
      intro a ha
      exact (List.mem_filter.mp ha).2
    have hmemq : ∀ a ∈ l.filter (fun i => i.fitness == some q),
        Individual.fitnessD a = q := by
      intro a ha
      have h2 := (List.mem_filter.mp ha).2
      simp only [beq_iff_eq] at h2
      simp [Individual.fitnessD, h2]
    have hpwf : List.Pairwise (fun a b => sortLe a b = true)
        (l.filter (fun i => i.fitness == some q)) := by
      refine List.pairwise_of_forall_mem_list ?_
      intro a ha b hb
      simp only [sortLe, decide_eq_true_eq, hmemq a ha, hmemq b hb]
      exact le_refl q
    have hsub2 : (l.filter (fun i => i.fitness == some q)).Sublist
        (l.mergeSort sortLe) :=
      List.sublist_mergeSort sortLe_trans sortLe_total hpwf
        (List.filter_sublist l)
    have hsub3 : (l.filter (fun i => i.fitness == some q)).Sublist
        ((l.mergeSort sortLe).filter (fun i => i.fitness == some q)) := by
      have h4 := List.Sublist.filter (fun i => i.fitness == some q) hsub2
      rwa [hself] at h4
    have hperm : ((l.mergeSort sortLe).filter
        (fun i => i.fitness == some q)).Perm
        (l.filter (fun i => i.fitness == some q)) :=
      (List.mergeSort_perm l sortLe).filter _
    exact (hsub3.eq_of_length hperm.length_eq.symm).symm
  · intro b hb x hx
    rcases hl2 : l.mergeSort sortLe with _ | ⟨hd, tl⟩
    · rw [hl2] at hb
      simp [best_individual_sorted] at hb
    · rw [hl2] at hb hx hpw2
      have hbd : hd = b := by simpa [best_individual_sorted] using hb
      subst hbd
      rcases List.mem_cons.mp hx with h | h
      · subst h
        exact le_refl _
      · exact List.rel_of_pairwise_cons hpw2 h
  · have hms : pop53310.mergeSort sortLe = pop53310 :=
      List.mergeSort_of_sorted (by decide)
    rw [sort_eq pop53310 (by decide), hms]
  · rfl

/-- Witness for C7: the concrete [5,3,3,1,0] scenario. -/
theorem sort_C7_witness :
    Population.sort pop53310 = some pop53310 ∧
      best_individual_sorted pop53310 = some ⟨some 5, 0⟩ := by
  obtain ⟨l2, hA, hB, hC, hD, hE, hF, hG⟩ := sort_C7 pop53310 (by decide)
  exact hG

/-- Helper: choosing from a non-empty slice yields an element. -/
theorem rngChoose_spec {α : Type} (l : List α) (r : Rng) (h : l ≠ []) :
    ∃ a r2, rngChoose l r = (some a, r2) := by
  have hlen : 0 < l.length := List.length_pos.mpr h
  have hie : l.isEmpty = false := by
    simpa [List.isEmpty_iff] using h
  unfold rngChoose
  rw [hie]
  dsimp only [Rng.genRange]
  refine ⟨l.get ⟨r.nats r.k % l.length, Nat.mod_lt _ hlen⟩, r.next, ?_⟩
  rw [List.getElem?_eq_getElem (Nat.mod_lt _ hlen)]
  rfl

/-- Helper: the representative draw of a non-empty niche yields an
individual. -/
theorem centroid_draw_spec {T : Type} (n : Niche T) (r : Rng)
    (h : n.population ≠ []) :
    ∃ rep r2, n.centroid_or_else_random r = (some rep, r2) := by
  cases hc : n.centroid with
  | none =>
    obtain ⟨a, r2, ha⟩ := rngChoose_spec n.population r h
    exact ⟨a, r2, by simp [Niche.centroid_or_else_random, hc, ha]⟩
  | some i =>
    cases hg : n.population[i]? with
    | some ind =>
      exact ⟨ind, r, by simp [Niche.centroid_or_else_random, hc, hg]⟩
    | none =>
      obtain ⟨a, r2, ha⟩ := rngChoose_spec n.population r h
      exact ⟨a, r2, by simp [Niche.centroid_or_else_random, hc, hg, ha]⟩

/-- Helper: a found index is within bounds. -/
theorem findIdx?_lt_length {α : Type} (p : α → Bool) :
    ∀ (l : List α) (i : Nat), l.findIdx? p = some i → i < l.length := by
  intro l
  induction l with
  | nil =>
    intro i h
    simp [List.findIdx?] at h
  | cons a t ih =>
    intro i h
    rw [List.findIdx?_cons] at h
    by_cases hp : p a = true
    · rw [if_pos hp] at h
      cases h
      simp
    · rw [if_neg hp, List.findIdx?_succ] at h
      obtain ⟨j, hj, hji⟩ := Option.map_eq_some'.mp h
      subst hji
      simpa using Nat.succ_lt_succ (ih j hj)

/-- Helper: the niche scan of `find_first_matching_niche` draws one
representative per niche in order and returns exactly the index of the
first representative whose distance to the individual is strictly below the
threshold (so a distance equal to the threshold never matches). -/
theorem findFirstMatchingAux_spec {T : Type} (dist : T → T → ℚ)
    (threshold : ℚ) (ind : Individual T) :
    ∀ (ns : List (Niche T)) (r : Rng), (∀ nch ∈ ns, nch.population ≠ []) →
      ∃ reps rD o r2,
        drawReps ns r = some (reps, rD) ∧
        reps.length = ns.length ∧
        findFirstMatchingAux dist threshold ind ns r = some (o, r2) ∧
        o = reps.findIdx?
          (fun rep => decide (dist rep.genome ind.genome < threshold)) := by
  intro ns
  induction ns with
  | nil =>
    intro r _
    exact ⟨[], r, none, r, rfl, rfl, rfl, rfl⟩
  | cons nch rest ih =>
    intro r h
    obtain ⟨rep, r2, hdraw⟩ := centroid_draw_spec nch r (h nch (by simp))
    obtain ⟨reps, rD, o, r3, hdr, hlen, hfind, ho⟩ :=
      ih r2 (fun x hx => h x (by simp [hx]))
    by_cases hd : dist rep.genome ind.genome < threshold
    · refine ⟨rep :: reps, rD, some 0, r2, ?_, by simp [hlen], ?_, ?_⟩
      · unfold drawReps
        rw [hdraw]
        dsimp only
        rw [hdr]
      · unfold findFirstMatchingAux
        rw [hdraw]
        dsimp only
        rw [if_pos hd]
      · rw [List.findIdx?_cons, if_pos (by simpa using hd)]
    · refine ⟨rep :: reps, rD, o.map Nat.succ, r3, ?_, by simp [hlen], ?_, ?_⟩
      · unfold drawReps
        rw [hdraw]
        dsimp only
        rw [hdr]
      · unfold findFirstMatchingAux
        rw [hdraw]
        dsimp only
        rw [if_neg hd, hfind]
      · rw [List.findIdx?_cons, if_neg (by simpa using hd),
          List.findIdx?_succ, ho]

/-- Helper: inserting into the niche at a valid index permutes the overall
content by appending the inserted individual. -/
theorem addIndToNth_flatten {T : Type} (ind : Individual T) :
    ∀ (ns : List (Niche T)) (i : Nat), i < ns.length →
      (((addIndToNth ind ns i).map Niche.population).flatten).Perm
        ((ns.map Niche.population).flatten ++ [ind]) := by
  intro ns
  induction ns with
  | nil =>
    intro i h
    simp at h
  | cons nch rest ih =>
    intro i h
    cases i with
    | zero =>
      simp only [addIndToNth, List.map_cons, List.flatten_cons]
      rw [List.append_assoc, List.append_assoc]
      exact List.Perm.append_left _ List.perm_append_comm
    | succ i =>
      simp only [addIndToNth, List.map_cons, List.flatten_cons]
      rw [List.append_assoc]
      exact List.Perm.append_left _ (ih i (by simpa using h))

/-- Helper: insertion preserves non-emptiness of every niche. -/
theorem addIndToNth_ne_nil {T : Type} (ind : Individual T) :
    ∀ (ns : List (Niche T)) (i : Nat),
      (∀ nch ∈ ns, nch.population ≠ []) →
      ∀ nch ∈ addIndToNth ind ns i, nch.population ≠ [] := by
  intro ns
  induction ns with
  | nil =>
    intro i _ nch hm
    simp [addIndToNth] at hm
  | cons a rest ih =>
    intro i h nch hm
    cases i with
    | zero =>
      simp only [addIndToNth] at hm
      rcases List.mem_cons.mp hm with he | hm2
      · subst he
        simp
      · exact h nch (by simp [hm2])
    | succ i =>
      simp only [addIndToNth] at hm
      rcases List.mem_cons.mp hm with he | hm2
      · subst he
        exact h nch (by simp)
      · exact ih i (fun x hx => h x (by simp [hx])) nch hm2

/-- Helper: the partition loop succeeds on rated individuals and its niches
hold exactly the processed individuals (as a permutation), all niches
non-empty. -/
theorem partitionGo_spec {T : Type} (threshold : ℚ) (dist : T → T → ℚ) :
    ∀ (l : List (Individual T)) (ns : Niches T) (r : Rng),
      allRated l = true → (∀ nch ∈ ns.niches, nch.population ≠ []) →
      ∃ ns2 rF, partitionGo threshold dist l ns r = some (ns2, rF) ∧
        ((ns2.niches.map Niche.population).flatten).Perm
          ((ns.niches.map Niche.population).flatten ++ l) ∧
        (∀ nch ∈ ns2.niches, nch.population ≠ []) := by
  intro l
  induction l with
  | nil =>
    intro ns r _ hne
    exact ⟨ns, r, rfl, by simp, hne⟩
  | cons ind rest ih =>
    intro ns r hrat hne
    have hratc := hrat
    rw [allRated, List.all_cons, Bool.and_eq_true] at hratc
    obtain ⟨hfi, hrat_rest⟩ := hratc
    obtain ⟨reps, rD, o, r2, hdr, hlen, hfind, ho⟩ :=
      findFirstMatchingAux_spec dist threshold ind ns.niches r hne
    have hfind2 : ns.find_first_matching_niche ind threshold dist r =
        some (o, r2) := hfind
    cases o with
    | some i =>
      have hi : i < ns.niches.length := by
        rw [← hlen]
        exact findIdx?_lt_length _ reps i ho.symm
      have hne2 : ∀ nch ∈ (addIndToNth ind ns.niches i),
          nch.population ≠ [] := addIndToNth_ne_nil ind ns.niches i hne
      obtain ⟨ns2, rF, hgo, hperm, hneF⟩ :=
        ih ⟨ns.total_individuals, addIndToNth ind ns.niches i⟩ r2
          hrat_rest hne2
      refine ⟨ns2, rF, ?_, ?_, hneF⟩
      · unfold partitionGo
        rw [hfind2]
        dsimp only
        rw [Individual.has_fitness, hfi, if_pos rfl]
        exact hgo
      · refine hperm.trans ?_
        have h1 := addIndToNth_flatten ind ns.niches i hi
        have h2 : ((addIndToNth ind ns.niches i).map Niche.population).flatten
              ++ rest |>.Perm
            ((ns.niches.map Niche.population).flatten ++ (ind :: rest)) := by
          rw [← List.singleton_append, ← List.append_assoc]
          exact h1.append_right rest
        exact h2
    | none =>
      have hne2 : ∀ nch ∈ (ns.add_niche ⟨[ind], none⟩).niches,
          nch.population ≠ [] := by
        intro nch hm
        rcases List.mem_append.mp hm with hm2 | hm2
        · exact hne nch hm2
        · simp only [List.mem_singleton] at hm2
          subst hm2
          simp
      obtain ⟨ns2, rF, hgo, hperm, hneF⟩ :=
        ih (ns.add_niche ⟨[ind], none⟩) r2 hrat_rest hne2
      refine ⟨ns2, rF, ?_, ?_, hneF⟩
      · unfold partitionGo
        rw [hfind2]
        dsimp only
        rw [Individual.has_fitness, hfi, if_pos rfl]
        exact hgo
      · refine hperm.trans ?_
        have hflat : (((ns.add_niche ⟨[ind], none⟩).niches).map
            Niche.population).flatten =
            (ns.niches.map Niche.population).flatten ++ [ind] := by
          show (((ns.niches ++ [(⟨[ind], none⟩ : Niche T)]).map
            Niche.population).flatten) = _
          rw [List.map_append, List.flatten_append]
          rfl
        rw [hflat, List.append_assoc, List.singleton_append]

/-- C3: `partition` of a rated population succeeds, distributes every input
individual into exactly one niche (the flattened niches are a permutation
of the input, so the niche sizes sum to N, all niches non-empty); the niche
scan places an individual at the first niche (in creation order) whose
drawn representative is at distance strictly below the threshold — a
distance equal to the threshold never matches — and when no niche matches,
a new singleton niche is appended at the end. -/
theorem partition_C3 {T : Type} (pop : Population T) (threshold : ℚ)
    (dist : T → T → ℚ) (r : Rng) (hfit : allRated pop = true) :
    (∃ ns rF, pop.partition r threshold dist = some (ns, rF) ∧
      (ns.niches.map (fun nch => nch.population.length)).sum = pop.length ∧
      ((ns.niches.map Niche.population).flatten).Perm pop ∧
      (∀ nch ∈ ns.niches, nch.population ≠ [])) ∧
    (∀ (niches : List (Niche T)) (ind : Individual T) (r0 : Rng),
      (∀ nch ∈ niches, nch.population ≠ []) →
      ∃ reps rD o r2, drawReps niches r0 = some (reps, rD) ∧
        reps.length = niches.length ∧
        findFirstMatchingAux dist threshold ind niches r0 = some (o, r2) ∧
        o = reps.findIdx?
          (fun rep => decide (dist rep.genome ind.genome < threshold))) ∧
    (∀ (ns0 : Niches T) (ind : Individual T) (r0 r2 : Rng),
      ns0.find_first_matching_niche ind threshold dist r0 =
        some (none, r2) →
      ind.has_fitness = true →
      partitionGo threshold dist [ind] ns0 r0 =
        some (ns0.add_niche ⟨[ind], none⟩, r2) ∧
      (ns0.add_niche ⟨[ind], none⟩).niches =
        ns0.niches ++ [⟨[ind], none⟩]) := by
  refine ⟨?_, fun niches ind r0 h =>
    findFirstMatchingAux_spec dist threshold ind niches r0 h, ?_⟩
  · obtain ⟨ns2, rF, hgo, hperm, hne⟩ :=
      partitionGo_spec threshold dist pop Niches.new r hfit
        (by intro nch hm; simp [Niches.new] at hm)
    have hperm2 : ((ns2.niches.map Niche.population).flatten).Perm pop := by
      simpa [Niches.new] using hperm
    refine ⟨ns2, rF, hgo, ?_, hperm2, hne⟩
    have hlen := hperm2.length_eq
    rw [List.length_flatten, List.map_map] at hlen
    exact hlen
  · intro ns0 ind r0 r2 hf hfi
    refine ⟨?_, rfl⟩
    unfold partitionGo
    rw [hf]
    dsimp only
    rw [Individual.has_fitness] at hfi
    rw [Individual.has_fitness, hfi, if_pos rfl]
    rfl

/-- Witness for C3 on the concrete two-individual population. -/
theorem partition_C3_witness :
    ∃ ns rF, popAB.partition rng0 1 distZero = some (ns, rF) ∧
      (ns.niches.map (fun nch => nch.population.length)).sum =
        popAB.length ∧
      ((ns.niches.map Niche.population).flatten).Perm popAB ∧
      (∀ nch ∈ ns.niches, nch.population ≠ []) :=
  (partition_C3 popAB 1 distZero rng0 (by decide)).1

/-- Helper: the mean fitness of a population of non-negative fitness is
non-negative. -/
theorem mean_fitness_nonneg {T : Type} (l : Population T)
    (h : ∀ i ∈ l, 0 ≤ Individual.fitnessD i) : 0 ≤ mean_fitness l := by
  unfold mean_fitness
  apply div_nonneg
  · apply List.sum_nonneg
    intro x hx
    obtain ⟨i, hi, rfl⟩ := List.mem_map.mp hx
    exact h i hi
  · exact Nat.cast_nonneg _

/-- Helper: the total mean over niches of non-negative fitness is
non-negative. -/
theorem total_mean_nonneg {T : Type} (ns : Niches T)
    (h : ∀ nch ∈ ns.niches, ∀ i ∈ nch.population, 0 ≤ Individual.fitnessD i) :
    0 ≤ ns.total_mean := by
  apply List.sum_nonneg
  intro x hx
  obtain ⟨nch, hn, rfl⟩ := List.mem_map.mp hx
  exact mean_fitness_nonneg _ (h nch hn)

/-- Helper: every niche share lies in `[0, 1]` (the assert of
`reproduce_global`). -/
theorem pct_bounds {T : Type} (ns : Niches T) (nch : Niche T)
    (hm : nch ∈ ns.niches)
    (h : ∀ nch ∈ ns.niches, ∀ i ∈ nch.population, 0 ≤ Individual.fitnessD i)
    (hn : ns.niches ≠ []) :
    0 ≤ percentage_of_population ns.total_mean ns.niches.length nch ∧
      percentage_of_population ns.total_mean ns.niches.length nch ≤ 1 := by
  unfold percentage_of_population
  by_cases htm : ns.total_mean = 0
  · rw [if_pos htm]
    have hlen : (1 : ℚ) ≤ (ns.niches.length : ℚ) := by
      have h1 : 1 ≤ ns.niches.length := List.length_pos.mpr hn
      exact_mod_cast h1
    constructor
    · exact div_nonneg zero_le_one (Nat.cast_nonneg _)
    · rw [div_le_one (by linarith)]
      linarith
  · rw [if_neg htm]
    have htm0 : 0 ≤ ns.total_mean := total_mean_nonneg ns h
    have htmpos : 0 < ns.total_mean := lt_of_le_of_ne htm0 (Ne.symm htm)
    have hmean_le : mean_fitness nch.population ≤ ns.total_mean := by
      apply List.single_le_sum
      · intro x hx
        obtain ⟨n2, hn2, rfl⟩ := List.mem_map.mp hx
        exact mean_fitness_nonneg _ (h n2 hn2)
      · exact List.mem_map.mpr ⟨nch, hm, rfl⟩
    constructor
    · exact div_nonneg (mean_fitness_nonneg _ (h nch hm)) htm0
    · rw [div_le_one htmpos]
      exact hmean_le

/-- Helper: the niche loop of `reproduce_global` succeeds when every niche
is rated and every share is in `[0,1]`. -/
theorem reproduceGlobalGo_spec {T : Type} (nps : Nat) (ef sf : ℚ)
    (mate : MateFn T) (tm : ℚ) (nn : Nat)
    (hef0 : 0 ≤ ef) (hef1 : ef ≤ 1) (hsf0 : 0 ≤ sf) :
    ∀ (rest : List (Niche T)),
      (∀ nch ∈ rest, allRated nch.population = true) →
      (∀ nch ∈ rest, 0 ≤ percentage_of_population tm nn nch ∧
        percentage_of_population tm nn nch ≤ 1) →
      ∀ nu nr r, ∃ out,
        reproduceGlobalGo nps ef sf mate tm nn rest nu nr r = some out := by
  intro rest
  induction rest with
  | nil =>
    intro _ _ nu nr r
    exact ⟨(nr, nu, r), rfl⟩
  | cons nch rest2 ih =>
    intro hfit hpct nu nr r
    have hp := hpct nch (by simp)
    obtain ⟨e, o, s, r1, r2, r3, offs, rF, he, ho, hs, hlen, heq⟩ :=
      reproduce_into_spec nch.population
        ((nps : ℚ) * percentage_of_population tm nn nch) ef sf mate nu nr r
        (hfit nch (by simp)) (mul_nonneg (Nat.cast_nonneg _) hp.1)
        hef0 hef1 hsf0
    obtain ⟨out, hout⟩ := ih (fun x hx => hfit x (by simp [hx]))
      (fun x hx => hpct x (by simp [hx]))
      (nu ++ offs.map (fun g => ⟨none, g⟩))
      (nr ++ (nch.population.mergeSort sortLe).take (max 1 (Int.toNat ⌊e⌋)))
      rF
    refine ⟨out, ?_⟩
    simp only [reproduceGlobalGo]
    rw [if_pos hp, heq]
    exact hout

/-- C5: `reproduce_global` sums the (unweighted) per-niche mean fitness
into `total_mean` and gives each niche the share
`mean/total_mean` when `total_mean > 0`, and exactly `1/num_niches` when
`total_mean = 0` — identical for all niches regardless of their sizes, as
the concrete unequal-size (1 vs 3) zero-fitness pair shows with a 50/50
split of a target of 100 — and completes under the stated preconditions. -/
theorem reproduce_global_C5 {T : Type} (ns : Niches T) (new_pop_size : Nat)
    (ef sf : ℚ) (mate : MateFn T) (rng : Rng)
    (hn : ns.niches ≠ []) (htot : 0 < ns.total_individuals)
    (hfit : ∀ nch ∈ ns.niches, allRated nch.population = true)
    (hpos : ∀ nch ∈ ns.niches, ∀ i ∈ nch.population,
      0 ≤ Individual.fitnessD i)
    (hef0 : 0 ≤ ef) (hef1 : ef ≤ 1) (hsf0 : 0 ≤ sf) (hes : ef ≤ sf) :
    ns.total_mean =
      (ns.niches.map (fun nch => mean_fitness nch.population)).sum ∧
    (0 < ns.total_mean → ∀ nch ∈ ns.niches,
      percentage_of_population ns.total_mean ns.niches.length nch *
        ns.total_mean = mean_fitness nch.population) ∧
    (ns.total_mean = 0 → ∀ nch ∈ ns.niches,
      percentage_of_population ns.total_mean ns.niches.length nch =
        1 / (ns.niches.length : ℚ)) ∧
    (ns.total_mean = 0 → ∀ nch1 ∈ ns.niches, ∀ nch2 ∈ ns.niches,
      percentage_of_population ns.total_mean ns.niches.length nch1 =
        percentage_of_population ns.total_mean ns.niches.length nch2) ∧
    ((100 : ℚ) * percentage_of_population nichesZ.total_mean 2 nicheZ1 = 50 ∧
      (100 : ℚ) * percentage_of_population nichesZ.total_mean 2 nicheZ3 = 50) ∧
    ∃ rated unrated rF,
      ns.reproduce_global new_pop_size ef sf mate rng =
        some (rated, unrated, rF) := by
  have hz : nichesZ.total_mean = 0 := by
    norm_num [Niches.total_mean, nichesZ, nicheZ1, nicheZ3, mean_fitness,
      Individual.fitnessD]
  refine ⟨rfl, ?_, ?_, ?_, ⟨?_, ?_⟩, ?_⟩
  · intro htm nch _
    unfold percentage_of_population
    rw [if_neg (ne_of_gt htm)]
    exact div_mul_cancel₀ _ (ne_of_gt htm)
  · intro htm nch _
    simp only [percentage_of_population, if_pos htm]
  · intro htm nch1 h1 nch2 h2
    simp only [percentage_of_population, if_pos htm]
  · simp only [percentage_of_population, if_pos hz]
    norm_num
  · simp only [percentage_of_population, if_pos hz]
    norm_num
  · obtain ⟨out, hout⟩ :=
      reproduceGlobalGo_spec new_pop_size ef sf mate ns.total_mean
        ns.niches.length hef0 hef1 hsf0 ns.niches hfit
        (fun nch hm => pct_bounds ns nch hm hpos hn) [] [] rng
    obtain ⟨a, b, c⟩ := out
    refine ⟨a, b, c, ?_⟩
    unfold Niches.reproduce_global
    rw [if_pos ⟨htot, List.length_pos.mpr hn, hes, total_mean_nonneg ns hpos⟩]
    exact hout

/-- Witness for C5 on the concrete unequal-size zero-fitness niches. -/
theorem reproduce_global_C5_witness :
    ∃ rated unrated rF,
      nichesZ.reproduce_global 100 0 0 mateNat rng0 =
        some (rated, unrated, rF) :=
  (reproduce_global_C5 nichesZ 100 0 0 mateNat rng0 (by decide) (by decide)
    (by decide) (by decide) (by norm_num) (by norm_num) (by norm_num)
    (by norm_num)).2.2.2.2.2
